import Mathlib

/-!
Shallow embedding of the `stoic` library (src/index.js, the authoritative
module: `Stoic.create`, `StoicError`, `StoicObject`, `StoicArray`, and
`Stoic.delegateStoicMethods`), together with proofs settling the frozen
claims about it.

Modelling conventions:
* JavaScript reference semantics are made explicit with a heap: composite
  values live in a `Heap` (a list of `HObj`), and a `JSValue.ref r` is a
  reference to slot `r`.  Reference identity is slot identity, which is what
  the source's `WeakMap`-based cycle tracker keys on.
* The sanitized output is the inductive `SVal`.  Constructed containers carry
  a `frozen` flag, set by the constructors exactly where the source calls
  `Object.freeze`.  `SVal.vRef r` models a value returned as-is by reference:
  either the identity passthrough of an already-immutable instance, or the
  `typeof`-based passthrough of a callable.
* `Stoic.create` takes a fuel argument (the JS recursion is bounded only by
  the call stack); running out of fuel is the distinguished `outOfFuel`
  error, never confused with the source's own `TypeError`s.
* `console.warn` on a circular reference is modelled as a `Diag` event
  carrying the structured current and original paths.
* Boxed primitive wrappers (`new Boolean(..)` etc., lines 108-117 of the
  source) are outside the modelled value universe; no claim mentions them.
-/

inductive Prim where
  | bool (b : Bool)
  | num (n : Int)
  | str (s : String)
  | sym (id : Nat)
  | bigint (z : Int)
deriving Repr, DecidableEq

/-- A JavaScript value: `null`, `undefined`, a primitive, or a reference to a
heap object. -/
inductive JSValue where
  | null
  | undef
  | prim (p : Prim)
  | ref (r : Nat)
deriving Repr, DecidableEq

/-- One component of a traversal path: an object key or an array index
(the source builds paths with `_path.concat(key)` / `_path.concat(i)`). -/
inductive PathElem where
  | key (s : String)
  | idx (n : Nat)
deriving Repr, DecidableEq

/-- A heap object, classified the way `Stoic.create` observes values:
`Array.isArray` and `Object.prototype.toString` tags.  The three
`stoic*` constructors stand for already-constructed immutable instances
(whose own contents are frozen at their construction); `func` is a callable
(`typeof` is not `'object'`); `promise`, `weakMap`, `weakSet` and
`arrayIterator` are host objects with no supported representation. -/
inductive HObj where
  | obj (fields : List (String × JSValue))
  | arr (elems : List JSValue)
  | err (name message stack : String) (cause : Option JSValue)
  | date (t : Int)
  | regexp (src : String)
  | stoicObject
  | stoicArray
  | stoicError
  | func
  | promise
  | weakMap
  | weakSet
  | arrayIterator
deriving Repr, DecidableEq

abbrev Heap := List HObj

/-- The `Object.prototype.toString` tag of a heap object. -/
def hobjTag : HObj → String
  | .obj _ => "[object Object]"
  | .arr _ => "[object Array]"
  | .err _ _ _ _ => "[object Error]"
  | .date _ => "[object Date]"
  | .regexp _ => "[object RegExp]"
  | .stoicObject => "[object StoicObject]"
  | .stoicArray => "[object StoicArray]"
  | .stoicError => "[object StoicError]"
  | .func => "[object Function]"
  | .promise => "[object Promise]"
  | .weakMap => "[object WeakMap]"
  | .weakSet => "[object WeakSet]"
  | .arrayIterator => "[object Array Iterator]"

/-- A sanitized value as produced by the library.  `vObj`, `vArr` and `vErr`
are the `StoicObject`, `StoicArray` and `StoicError` container shapes with
their `Object.freeze` state made explicit; `vRef` is a source reference
returned as-is (already-immutable passthrough, or a callable let through by
the `typeof` check). -/
inductive SVal where
  | vNull
  | vUndef
  | vPrim (p : Prim)
  | vRef (r : Nat)
  | vObj (frozen : Bool) (fields : List (String × SVal))
  | vArr (frozen : Bool) (elems : List SVal)
  | vErr (frozen : Bool) (name message stack : String) (cause : Option SVal)
deriving Repr

/-- The diagnostic event emitted by the `console.warn` on a detected circular
reference: `Circular ref at path {currentPath} to {originalPath}`. -/
structure Diag where
  currentPath : List PathElem
  originalPath : List PathElem
deriving Repr, DecidableEq

/-- Failure modes of the embedded code: the `TypeError`s thrown by
`Stoic.create` (unsupported type) and by the direct constructors (invalid
argument), plus fuel exhaustion, an artifact of the embedding standing for
the unbounded JS call stack. -/
inductive CreateErr where
  | unsupportedType (tag : String)
  | invalidArgument (msg : String)
  | outOfFuel
deriving Repr, DecidableEq

/-- The cycle tracker: the source's `_seen` WeakMap, mapping a visited
reference to the path at which it was first visited. -/
abbrev Seen := List (Nat × List PathElem)

def lookupSeen : Seen → Nat → Option (List PathElem)
  | [], _ => none
  | (r, p) :: rest, q => if r = q then some p else lookupSeen rest q

/-- The `for (let i = 0; ...)` sanitization loop of the array branch of
`Stoic.create` (line 86-92), abstracted over the recursive call `f`: each
element is sanitized at path `path ++ [idx i]`, threading the shared cycle
tracker and accumulating diagnostics. -/
def sanitizeElems
    (f : JSValue → List PathElem → Seen → Except CreateErr (SVal × Seen × List Diag)) :
    List JSValue → List PathElem → Nat → Seen →
    Except CreateErr (List SVal × Seen × List Diag)
  | [], _, _, seen => .ok ([], seen, [])
  | v :: vs, path, i, seen => do
    let (sv, seen1, d1) ← f v (path ++ [.idx i]) seen
    let (svs, seen2, d2) ← sanitizeElems f vs path (i + 1) seen1
    .ok (sv :: svs, seen2, d1 ++ d2)

/-- The `for (const key in source)` sanitization loop of the object branch of
`Stoic.create` (line 99-106), abstracted over the recursive call `f`. -/
def sanitizeFields
    (f : JSValue → List PathElem → Seen → Except CreateErr (SVal × Seen × List Diag)) :
    List (String × JSValue) → List PathElem → Seen →
    Except CreateErr (List (String × SVal) × Seen × List Diag)
  | [], _, seen => .ok ([], seen, [])
  | (k, v) :: fs, path, seen => do
    let (sv, seen1, d1) ← f v (path ++ [.key k]) seen
    let (svs, seen2, d2) ← sanitizeFields f fs path seen1
    .ok ((k, sv) :: svs, seen2, d1 ++ d2)

namespace Stoic

/-- `Stoic.create(source, _seen, _path)` (src/index.js lines 58-120), with an
explicit heap and fuel.  Faithful branch order:
1. `null`/`undefined` returned as-is (line 59);
2. any value whose `typeof` is not `'object'` returned as-is (line 60) —
   primitives, and also callables (`typeof` is `'function'`);
3. the `_seen` revisit check, emitting the circular-reference diagnostic and
   substituting `undefined` (lines 62-68);
4. `_seen.set(source, _path.slice())` (line 70) — before the tag dispatch,
   so already-immutable instances are also registered;
5. tag dispatch: StoicObject/StoicArray/StoicError returned as-is (75-80),
   Date to its numeric `valueOf` (82), RegExp to its string form (84),
   arrays recursed and wrapped (86-92), errors wrapped by `StoicError`
   (94-97), plain objects recursed and wrapped (99-106), anything else
   throws the `Unsupported type` TypeError (119).
The `StoicArray(proxy)` / `StoicObject(proxy)` constructor calls re-run
`Stoic.create` on each already-sanitized element with a fresh tracker, which
is the identity on sanitized values; the model wraps the sanitized children
directly.  The cause of an error is sanitized through a fresh tracker and an
empty path, exactly as `StoicError`'s body calls `Stoic.create(error.cause)`
with the default arguments. -/
def create (h : Heap) : Nat → JSValue → List PathElem → Seen →
    Except CreateErr (SVal × Seen × List Diag)
  | 0, _, _, _ => .error .outOfFuel
  | fuel + 1, v, path, seen =>
    match v with
    | .null => .ok (.vNull, seen, [])
    | .undef => .ok (.vUndef, seen, [])
    | .prim p => .ok (.vPrim p, seen, [])
    | .ref r =>
      match h[r]? with
      | none => .error (.invalidArgument ("dangling reference"))
      | some ho =>
        if ho = .func then .ok (.vRef r, seen, [])
        else
          match lookupSeen seen r with
          | some orig => .ok (.vUndef, seen, [⟨path, orig⟩])
          | none =>
            let seen1 : Seen := (r, path) :: seen
            match ho with
            | .stoicObject => .ok (.vRef r, seen1, [])
            | .stoicArray => .ok (.vRef r, seen1, [])
            | .stoicError => .ok (.vRef r, seen1, [])
            | .date t => .ok (.vPrim (.num t), seen1, [])
            | .regexp s => .ok (.vPrim (.str s), seen1, [])
            | .arr elems => do
              let (svs, seen2, d) ←
                sanitizeElems (fun v p s => create h fuel v p s) elems path 0 seen1
              .ok (.vArr true svs, seen2, d)
            | .err name msg stack copt =>
              (match copt with
               | none => .ok (.vErr true ("Stoic" ++ name) msg stack none, seen1, [])
               | some c => do
                 let (cv, _, d) ← create h fuel c [] []
                 .ok (.vErr true ("Stoic" ++ name) msg stack (some cv), seen1, d))
            | .obj fields => do
              let (svs, seen2, d) ←
                sanitizeFields (fun v p s => create h fuel v p s) fields path seen1
              .ok (.vObj true svs, seen2, d)
            | _ => .error (.unsupportedType (hobjTag ho))

end Stoic

/-- The per-field `Stoic.create(value)` calls inside the `StoicObject`
constructor body (line 251): each value is sanitized with a fresh default
tracker and empty path, independently of its siblings. -/
def ctorFields (h : Heap) (fuel : Nat) :
    List (String × JSValue) → Except CreateErr (List (String × SVal) × List Diag)
  | [] => .ok ([], [])
  | (k, v) :: fs => do
    let (sv, _, d1) ← Stoic.create h fuel v [] []
    let (svs, d2) ← ctorFields h fuel fs
    .ok ((k, sv) :: svs, d1 ++ d2)

/-- The per-element `Stoic.create(source[i])` calls inside the `StoicArray`
constructor body (line 308). -/
def ctorElems (h : Heap) (fuel : Nat) :
    List JSValue → Except CreateErr (List SVal × List Diag)
  | [] => .ok ([], [])
  | v :: vs => do
    let (sv, _, d1) ← Stoic.create h fuel v [] []
    let (svs, d2) ← ctorElems h fuel vs
    .ok (sv :: svs, d1 ++ d2)

/-- The `StoicError` constructor (src/index.js lines 179-211): input must
have the `[object Error]` tag (a `StoicError` instance has the tag
`[object StoicError]` and is therefore rejected too); the instance gets
`name = 'Stoic' + error.name`, `message` and `stack` copied verbatim, a
`cause` only when `'cause' in error`, the cause sanitized through
`Stoic.create(error.cause)` with default arguments, and is frozen. -/
def StoicErrorCtor (h : Heap) (fuel : Nat) (v : JSValue) :
    Except CreateErr (SVal × List Diag) :=
  match v with
  | .ref r =>
    match h[r]? with
    | some (.err name msg stack copt) =>
      (match copt with
       | none => .ok (.vErr true ("Stoic" ++ name) msg stack none, [])
       | some c => do
         let (cv, _, d) ← Stoic.create h fuel c [] []
         .ok (.vErr true ("Stoic" ++ name) msg stack (some cv), d))
    | _ => .error (.invalidArgument ("StoicError expects an error."))
  | _ => .error (.invalidArgument ("StoicError expects an error."))

/-- The `StoicObject` constructor (src/index.js lines 237-261): an existing
`StoicObject` instance is returned unchanged (line 238); otherwise the input
must be a non-array value with the `[object Object]` tag; each own enumerable
entry is defined non-writable, non-configurable with its value sanitized, and
the instance is frozen. -/
def StoicObjectCtor (h : Heap) (fuel : Nat) (v : JSValue) :
    Except CreateErr (SVal × List Diag) :=
  match v with
  | .ref r =>
    match h[r]? with
    | some .stoicObject => .ok (.vRef r, [])
    | some (.obj fields) => do
      let (svs, d) ← ctorFields h fuel fields
      .ok (.vObj true svs, d)
    | _ => .error (.invalidArgument ("StoicObject expects a plain object."))
  | _ => .error (.invalidArgument ("StoicObject expects a plain object."))

/-- The `StoicArray` constructor (src/index.js lines 297-327): an existing
`StoicArray` instance is returned unchanged (line 298); otherwise the input
must satisfy `Array.isArray`; each element is sanitized, `length` is fixed,
and the instance is frozen. -/
def StoicArrayCtor (h : Heap) (fuel : Nat) (v : JSValue) :
    Except CreateErr (SVal × List Diag) :=
  match v with
  | .ref r =>
    match h[r]? with
    | some .stoicArray => .ok (.vRef r, [])
    | some (.arr elems) => do
      let (svs, d) ← ctorElems h fuel elems
      .ok (.vArr true svs, d)
    | _ => .error (.invalidArgument ("StoicArray expects an array."))
  | _ => .error (.invalidArgument ("StoicArray expects an array."))

/-- The delegated `map` view operation installed on `StoicArray.prototype` by
`Stoic.delegateStoicMethods` (lines 147-156 and 347): the underlying
`Array.prototype.map` runs the callback over the receiver's (already
sanitized) elements producing a host array, and the wrapper re-wraps that
host array through `new StoicArray(result)`, whose body re-sanitizes each
element.  The callback is modelled on the element argument. -/
def stoicArrayMapOp (h : Heap) (fuel : Nat) (s : SVal) (f : SVal → JSValue) :
    Except CreateErr (SVal × List Diag) :=
  match s with
  | .vArr _ elems => do
    let (svs, d) ← ctorElems h fuel (elems.map f)
    .ok (.vArr true svs, d)
  | _ => .error (.invalidArgument ("receiver is not array-shaped"))

/-- The delegated `values` view operation on `StoicArray.prototype` (line
357): the underlying `Array.prototype.values` produces a fresh host Array
Iterator object (modelled by extending the heap with one), and the wrapper
applies `Stoic.create` to it. -/
def stoicArrayValuesOp (h : Heap) (fuel : Nat) (_s : SVal) :
    Except CreateErr (SVal × List Diag) :=
  (Stoic.create (h ++ [.arrayIterator]) fuel (.ref h.length) [] []).map
    (fun x => (x.1, x.2.2))

/-- Own-property lookup in a sanitized record's field list. -/
def lookupField : List (String × SVal) → String → Option SVal
  | [], _ => none
  | (k, v) :: fs, q => if k = q then some v else lookupField fs q

/-- One navigation step into a sanitized value: an object key, an array
index, or an error's `cause` field. -/
def childAt : SVal → PathElem → Option SVal
  | .vObj _ fields, .key k => lookupField fields k
  | .vArr _ elems, .idx i => elems[i]?
  | .vErr _ _ _ _ (some c), .key k => if k = "cause" then some c else none
  | _, _ => none

/-- Navigation along a path of keys and indices. -/
def subAt : SVal → List PathElem → Option SVal
  | sv, [] => some sv
  | sv, e :: p => (childAt sv e).bind (fun c => subAt c p)

/-- Whether a property write (assignment, addition or removal) on this node
itself succeeds in the host language.  A container whose `Object.freeze` ran
rejects every write; an already-immutable instance on the heap was frozen at
its own construction; a live host object reached by passthrough (a callable)
accepts writes; primitive values never do. -/
def nodeMutable (h : Heap) : SVal → Bool
  | .vObj frozen _ => !frozen
  | .vArr frozen _ => !frozen
  | .vErr frozen _ _ _ _ => !frozen
  | .vRef r =>
    match h[r]? with
    | some .stoicObject => false
    | some .stoicArray => false
    | some .stoicError => false
    | some _ => true
    | none => false
  | _ => false

/-- Whether some field assignment, addition or removal at the node reached via
`path` from `sv` succeeds. -/
def mutationSucceeds (h : Heap) (sv : SVal) (path : List PathElem) : Bool :=
  match subAt sv path with
  | some node => nodeMutable h node
  | none => false

mutual
/-- Every container reachable in the sanitized value is frozen, and every
reference passed through points at an already-immutable instance. -/
def deepImm (h : Heap) : SVal → Bool
  | .vObj frozen fields => frozen && deepImmFields h fields
  | .vArr frozen elems => frozen && deepImmElems h elems
  | .vErr frozen _ _ _ (some c) => frozen && deepImm h c
  | .vErr frozen _ _ _ none => frozen
  | .vRef r =>
    match h[r]? with
    | some .stoicObject => true
    | some .stoicArray => true
    | some .stoicError => true
    | _ => false
  | _ => true
def deepImmElems (h : Heap) : List SVal → Bool
  | [] => true
  | v :: vs => deepImm h v && deepImmElems h vs
def deepImmFields (h : Heap) : List (String × SVal) → Bool
  | [] => true
  | (_, v) :: fs => deepImm h v && deepImmFields h fs
end

/-- A heap object the specification's classifier supports: records,
sequences, failures, date-like and pattern-like built-ins, and the three
already-immutable variants.  Callables, pending-computation handles and
weak-identity containers are the unsupported kinds. -/
def hobjSupported : HObj → Bool
  | .obj _ => true
  | .arr _ => true
  | .err _ _ _ _ => true
  | .date _ => true
  | .regexp _ => true
  | .stoicObject => true
  | .stoicArray => true
  | .stoicError => true
  | _ => false

/-- Every object of the input graph is of a supported kind. -/
def SupportedHeap (h : Heap) : Bool := h.all hobjSupported

/-- The `length` own property of a sanitized sequence. -/
def svalLength : SVal → Option Nat
  | .vArr _ elems => some elems.length
  | _ => none

/-! Concrete inputs used by the claims below, one family per claim. -/

def heapC1 : Heap := [.obj [("a", .ref 1)], .arr [.prim (.num 7)]]

def heapC2func : Heap := [.func]
def heapC2nest : Heap := [.func, .obj [("f", .ref 0)]]
def heapC2promise : Heap := [.promise]
def heapC2weakMap : Heap := [.weakMap]

def heapC3 : Heap := [.obj [("self", .ref 0)]]

def heapC4dag : Heap := [.obj [], .obj [("x", .ref 0), ("y", .ref 0)]]
def heapC4eq : Heap := [.obj [], .obj [], .obj [("x", .ref 0), ("y", .ref 1)]]
def heapC4seen : Heap := [.obj []]

def heapC5 : Heap := [.stoicObject]
def heapC5dup : Heap := [.stoicObject, .arr [.ref 0, .ref 0]]
def heapC5w : Heap := [.stoicArray]

def heapC6 : Heap := [.stoicObject, .stoicArray, .stoicError]

def heapC7 : Heap := [.obj [("a", .prim (.num 1)), ("b", .null)], .arr [.prim (.num 1), .prim (.str ("x"))]]

def heapC8good : Heap :=
  [.obj [("k", .prim (.str ("v")))], .err ("Range") ("bad") ("trace") (some (.ref 0))]
def heapC8bad : Heap := [.func, .err ("Range") ("bad") ("trace") (some (.ref 0))]
def heapC8none : Heap := [.err ("Range") ("bad") ("trace") none]

def heapC9 : Heap := [.arr [.prim (.num 1), .prim (.num 2), .prim (.num 3)]]
def seqC9 : SVal := .vArr true [.vPrim (.num 1), .vPrim (.num 2), .vPrim (.num 3)]
def doubleC9 : SVal → JSValue
  | .vPrim (.num n) => .prim (.num (2 * n))
  | _ => .undef

def heapC10 : Heap := [.arr [.prim (.num 1)]]
def seqC10 : SVal := .vArr true [.vPrim (.num 1)]

/-! Supporting lemmas about the embedding. -/

theorem supportedHeap_lookup {h : Heap} {r : Nat} {ho : HObj}
    (hsup : SupportedHeap h = true) (hr : h[r]? = some ho) : hobjSupported ho = true :=
  List.all_eq_true.mp hsup ho (List.getElem?_mem hr)

theorem deepImmElems_iff {h : Heap} {l : List SVal} :
    deepImmElems h l = true ↔ ∀ x ∈ l, deepImm h x = true := by
  induction l with
  | nil => simp [deepImmElems]
  | cons v vs ih => simp [deepImmElems, ih]

theorem deepImmFields_iff {h : Heap} {l : List (String × SVal)} :
    deepImmFields h l = true ↔ ∀ kv ∈ l, deepImm h kv.2 = true := by
  induction l with
  | nil => simp [deepImmFields]
  | cons kv fs ih =>
    obtain ⟨k, v⟩ := kv
    simp [deepImmFields, ih]

theorem sanitizeElems_all
    {f : JSValue → List PathElem → Seen → Except CreateErr (SVal × Seen × List Diag)}
    {P : SVal → Prop}
    (hf : ∀ v p s sv s1 d, f v p s = .ok (sv, s1, d) → P sv) :
    ∀ vs path i s0 svs s1 d, sanitizeElems f vs path i s0 = .ok (svs, s1, d) →
      ∀ x ∈ svs, P x := by
  intro vs
  induction vs with
  | nil =>
    intro path i s0 svs s1 d hk x hx
    simp [sanitizeElems] at hk
    obtain ⟨rfl, -, -⟩ := hk
    simp at hx
  | cons v rest ih =>
    intro path i s0 svs s1 d hk x hx
    rw [sanitizeElems] at hk
    cases hv : f v (path ++ [.idx i]) s0 with
    | error e => rw [hv] at hk; simp [Bind.bind, Except.bind] at hk
    | ok out =>
      obtain ⟨sv, sA, d1⟩ := out
      rw [hv] at hk
      simp only [Bind.bind, Except.bind] at hk
      cases hrest : sanitizeElems f rest path (i + 1) sA with
      | error e => rw [hrest] at hk; simp at hk
      | ok outs =>
        obtain ⟨svs2, sB, d2⟩ := outs
        rw [hrest] at hk
        simp at hk
        obtain ⟨rfl, -, -⟩ := hk
        rcases List.mem_cons.mp hx with rfl | hx2
        · exact hf _ _ _ _ _ _ hv
        · exact ih _ _ _ _ _ _ hrest x hx2

theorem sanitizeFields_all
    {f : JSValue → List PathElem → Seen → Except CreateErr (SVal × Seen × List Diag)}
    {P : SVal → Prop}
    (hf : ∀ v p s sv s1 d, f v p s = .ok (sv, s1, d) → P sv) :
    ∀ fs path s0 svs s1 d, sanitizeFields f fs path s0 = .ok (svs, s1, d) →
      ∀ kv ∈ svs, P kv.2 := by
  intro fs
  induction fs with
  | nil =>
    intro path s0 svs s1 d hk x hx
    simp [sanitizeFields] at hk
    obtain ⟨rfl, -, -⟩ := hk
    simp at hx
  | cons kv rest ih =>
    obtain ⟨k, v⟩ := kv
    intro path s0 svs s1 d hk x hx
    rw [sanitizeFields] at hk
    cases hv : f v (path ++ [.key k]) s0 with
    | error e => rw [hv] at hk; simp [Bind.bind, Except.bind] at hk
    | ok out =>
      obtain ⟨sv, sA, d1⟩ := out
      rw [hv] at hk
      simp only [Bind.bind, Except.bind] at hk
      cases hrest : sanitizeFields f rest path sA with
      | error e => rw [hrest] at hk; simp at hk
      | ok outs =>
        obtain ⟨svs2, sB, d2⟩ := outs
        rw [hrest] at hk
        simp at hk
        obtain ⟨rfl, -, -⟩ := hk
        rcases List.mem_cons.mp hx with rfl | hx2
        · exact hf _ _ _ _ _ _ hv
        · exact ih _ _ _ _ _ hrest x hx2

theorem create_deepImm (h : Heap) (hsup : SupportedHeap h = true) :
    ∀ fuel v path seen sv s1 d,
      Stoic.create h fuel v path seen = .ok (sv, s1, d) → deepImm h sv = true := by
  intro fuel
  induction fuel with
  | zero =>
    intro v path seen sv s1 d hk
    simp [Stoic.create] at hk
  | succ n ih =>
    intro v path seen sv s1 d hk
    cases v with
    | null => simp [Stoic.create] at hk; obtain ⟨rfl, -, -⟩ := hk; rfl
    | undef => simp [Stoic.create] at hk; obtain ⟨rfl, -, -⟩ := hk; rfl
    | prim p => simp [Stoic.create] at hk; obtain ⟨rfl, -, -⟩ := hk; rfl
    | ref r =>
      rw [Stoic.create] at hk
      cases hr : h[r]? with
      | none => rw [hr] at hk; simp at hk
      | some ho =>
        rw [hr] at hk
        dsimp only at hk
        by_cases hfo : ho = HObj.func
        · subst hfo
          exact absurd (supportedHeap_lookup hsup hr) (by simp [hobjSupported])
        · rw [if_neg hfo] at hk
          cases hs : lookupSeen seen r with
          | some orig => rw [hs] at hk; simp at hk; obtain ⟨rfl, -, -⟩ := hk; rfl
          | none =>
            rw [hs] at hk
            cases ho with
            | stoicObject => simp at hk; obtain ⟨rfl, -, -⟩ := hk; simp [deepImm, hr]
            | stoicArray => simp at hk; obtain ⟨rfl, -, -⟩ := hk; simp [deepImm, hr]
            | stoicError => simp at hk; obtain ⟨rfl, -, -⟩ := hk; simp [deepImm, hr]
            | date t => simp at hk; obtain ⟨rfl, -, -⟩ := hk; rfl
            | regexp s => simp at hk; obtain ⟨rfl, -, -⟩ := hk; rfl
            | arr elems =>
              simp only [Bind.bind, Except.bind] at hk
              cases hse : sanitizeElems (fun v p s => Stoic.create h n v p s) elems path 0
                  ((r, path) :: seen) with
              | error e => rw [hse] at hk; simp at hk
              | ok outs =>
                obtain ⟨svs, sB, d2⟩ := outs
                rw [hse] at hk
                simp at hk
                obtain ⟨rfl, -, -⟩ := hk
                have hall : ∀ x ∈ svs, deepImm h x = true :=
                  sanitizeElems_all (fun v p s sv s1 d hv => ih v p s sv s1 d hv)
                    elems path 0 ((r, path) :: seen) svs sB d2 hse
                simp [deepImm, deepImmElems_iff.mpr hall]
            | err name msg stack copt =>
              cases copt with
              | none => simp at hk; obtain ⟨rfl, -, -⟩ := hk; rfl
              | some c =>
                simp only [Bind.bind, Except.bind] at hk
                cases hc : Stoic.create h n c [] [] with
                | error e => rw [hc] at hk; simp at hk
                | ok out =>
                  obtain ⟨cv, sB, d2⟩ := out
                  rw [hc] at hk
                  simp at hk
                  obtain ⟨rfl, -, -⟩ := hk
                  have := ih c [] [] cv sB d2 hc
                  simp [deepImm, this]
            | obj fields =>
              simp only [Bind.bind, Except.bind] at hk
              cases hse : sanitizeFields (fun v p s => Stoic.create h n v p s) fields path
                  ((r, path) :: seen) with
              | error e => rw [hse] at hk; simp at hk
              | ok outs =>
                obtain ⟨svs, sB, d2⟩ := outs
                rw [hse] at hk
                simp at hk
                obtain ⟨rfl, -, -⟩ := hk
                have hall : ∀ kv ∈ svs, deepImm h kv.2 = true :=
                  sanitizeFields_all (fun v p s sv s1 d hv => ih v p s sv s1 d hv)
                    fields path ((r, path) :: seen) svs sB d2 hse
                simp [deepImm, deepImmFields_iff.mpr hall]
            | func => exact absurd rfl hfo
            | promise => simp at hk
            | weakMap => simp at hk
            | weakSet => simp at hk
            | arrayIterator => simp at hk

theorem deepImm_nodeMutable {h : Heap} {sv : SVal} (hi : deepImm h sv = true) :
    nodeMutable h sv = false := by
  cases sv with
  | vNull => rfl
  | vUndef => rfl
  | vPrim p => rfl
  | vRef r =>
    rw [deepImm] at hi
    rw [nodeMutable]
    cases hr : h[r]? with
    | none => rfl
    | some ho => rw [hr] at hi; cases ho <;> simp_all
  | vObj frozen fields => rw [deepImm] at hi; simp at hi; simp [nodeMutable, hi.1]
  | vArr frozen elems => rw [deepImm] at hi; simp at hi; simp [nodeMutable, hi.1]
  | vErr frozen name msg stack copt =>
    cases copt with
    | none => rw [deepImm] at hi; simp [nodeMutable, hi]
    | some c => rw [deepImm] at hi; simp at hi; simp [nodeMutable, hi.1]

theorem lookupField_deepImm {h : Heap} {fields : List (String × SVal)} {k : String} {c : SVal}
    (hi : deepImmFields h fields = true) (hl : lookupField fields k = some c) :
    deepImm h c = true := by
  induction fields with
  | nil => simp [lookupField] at hl
  | cons kv fs ih =>
    obtain ⟨k0, v0⟩ := kv
    rw [deepImmFields] at hi
    simp at hi
    rw [lookupField] at hl
    by_cases hkk : k0 = k
    · rw [if_pos hkk] at hl
      obtain rfl : v0 = c := by injection hl
      exact hi.1
    · rw [if_neg hkk] at hl
      exact ih hi.2 hl

theorem getElem_deepImm {h : Heap} {elems : List SVal} {i : Nat} {c : SVal}
    (hi : deepImmElems h elems = true) (hl : elems[i]? = some c) :
    deepImm h c = true :=
  deepImmElems_iff.mp hi c (List.getElem?_mem hl)

theorem deepImm_childAt {h : Heap} {sv : SVal} {e : PathElem} {c : SVal}
    (hi : deepImm h sv = true) (hc : childAt sv e = some c) : deepImm h c = true := by
  cases sv with
  | vNull => simp [childAt] at hc
  | vUndef => simp [childAt] at hc
  | vPrim p => simp [childAt] at hc
  | vRef r => simp [childAt] at hc
  | vObj frozen fields =>
    cases e with
    | key k =>
      rw [deepImm] at hi
      simp at hi
      exact lookupField_deepImm hi.2 hc
    | idx i => simp [childAt] at hc
  | vArr frozen elems =>
    cases e with
    | key k => simp [childAt] at hc
    | idx i =>
      rw [deepImm] at hi
      simp at hi
      exact getElem_deepImm hi.2 hc
  | vErr frozen name msg stack copt =>
    cases copt with
    | none => simp [childAt] at hc
    | some c0 =>
      cases e with
      | key k =>
        rw [childAt] at hc
        by_cases hkk : k = "cause"
        · rw [if_pos hkk] at hc
          obtain rfl : c0 = c := by injection hc
          rw [deepImm] at hi
          simp at hi
          exact hi.2
        · rw [if_neg hkk] at hc
          exact absurd hc (by simp)
      | idx i => simp [childAt] at hc

theorem deepImm_subAt {h : Heap} {sv : SVal} {p : List PathElem} {c : SVal}
    (hi : deepImm h sv = true) (hs : subAt sv p = some c) : deepImm h c = true := by
  induction p generalizing sv with
  | nil =>
    rw [subAt] at hs
    obtain rfl : sv = c := by injection hs
    exact hi
  | cons e rest ih =>
    rw [subAt] at hs
    cases hc : childAt sv e with
    | none => rw [hc] at hs; simp at hs
    | some mid =>
      rw [hc] at hs
      simp at hs
      exact ih (deepImm_childAt hi hc) hs

theorem deepImm_mutation {h : Heap} {sv : SVal} (hi : deepImm h sv = true) :
    ∀ p, mutationSucceeds h sv p = false := by
  intro p
  rw [mutationSucceeds]
  cases hs : subAt sv p with
  | none => rfl
  | some node => exact deepImm_nodeMutable (deepImm_subAt hi hs)

theorem sanitizeElems_seen
    {f : JSValue → List PathElem → Seen → Except CreateErr (SVal × Seen × List Diag)}
    (hf : ∀ v p s sv s1 d, f v p s = .ok (sv, s1, d) → ∃ pre, s1 = pre ++ s) :
    ∀ vs path i s0 svs s1 d, sanitizeElems f vs path i s0 = .ok (svs, s1, d) →
      ∃ pre, s1 = pre ++ s0 := by
  intro vs
  induction vs with
  | nil =>
    intro path i s0 svs s1 d hk
    simp [sanitizeElems] at hk
    exact ⟨[], hk.2.1.symm⟩
  | cons v rest ih =>
    intro path i s0 svs s1 d hk
    rw [sanitizeElems] at hk
    cases hv : f v (path ++ [.idx i]) s0 with
    | error e => rw [hv] at hk; simp [Bind.bind, Except.bind] at hk
    | ok out =>
      obtain ⟨sv, sA, d1⟩ := out
      rw [hv] at hk
      simp only [Bind.bind, Except.bind] at hk
      cases hrest : sanitizeElems f rest path (i + 1) sA with
      | error e => rw [hrest] at hk; simp at hk
      | ok outs =>
        obtain ⟨svs2, sB, d2⟩ := outs
        rw [hrest] at hk
        simp at hk
        obtain ⟨p1, hp1⟩ := hf _ _ _ _ _ _ hv
        obtain ⟨p2, hp2⟩ := ih _ _ _ _ _ _ hrest
        refine ⟨p2 ++ p1, ?_⟩
        rw [← hk.2.1, hp2, hp1, List.append_assoc]

theorem sanitizeFields_seen
    {f : JSValue → List PathElem → Seen → Except CreateErr (SVal × Seen × List Diag)}
    (hf : ∀ v p s sv s1 d, f v p s = .ok (sv, s1, d) → ∃ pre, s1 = pre ++ s) :
    ∀ fs path s0 svs s1 d, sanitizeFields f fs path s0 = .ok (svs, s1, d) →
      ∃ pre, s1 = pre ++ s0 := by
  intro fs
  induction fs with
  | nil =>
    intro path s0 svs s1 d hk
    simp [sanitizeFields] at hk
    exact ⟨[], hk.2.1.symm⟩
  | cons kv rest ih =>
    obtain ⟨k, v⟩ := kv
    intro path s0 svs s1 d hk
    rw [sanitizeFields] at hk
    cases hv : f v (path ++ [.key k]) s0 with
    | error e => rw [hv] at hk; simp [Bind.bind, Except.bind] at hk
    | ok out =>
      obtain ⟨sv, sA, d1⟩ := out
      rw [hv] at hk
      simp only [Bind.bind, Except.bind] at hk
      cases hrest : sanitizeFields f rest path sA with
      | error e => rw [hrest] at hk; simp at hk
      | ok outs =>
        obtain ⟨svs2, sB, d2⟩ := outs
        rw [hrest] at hk
        simp at hk
        obtain ⟨p1, hp1⟩ := hf _ _ _ _ _ _ hv
        obtain ⟨p2, hp2⟩ := ih _ _ _ _ _ hrest
        refine ⟨p2 ++ p1, ?_⟩
        rw [← hk.2.1, hp2, hp1, List.append_assoc]

theorem create_seen_mono (h : Heap) :
    ∀ fuel v path seen sv s1 d,
      Stoic.create h fuel v path seen = .ok (sv, s1, d) → ∃ pre, s1 = pre ++ seen := by
  intro fuel
  induction fuel with
  | zero =>
    intro v path seen sv s1 d hk
    simp [Stoic.create] at hk
  | succ n ih =>
    intro v path seen sv s1 d hk
    cases v with
    | null => simp [Stoic.create] at hk; exact ⟨[], hk.2.1.symm⟩
    | undef => simp [Stoic.create] at hk; exact ⟨[], hk.2.1.symm⟩
    | prim p => simp [Stoic.create] at hk; exact ⟨[], hk.2.1.symm⟩
    | ref r =>
      rw [Stoic.create] at hk
      cases hr : h[r]? with
      | none => rw [hr] at hk; simp at hk
      | some ho =>
        rw [hr] at hk
        dsimp only at hk
        by_cases hfo : ho = HObj.func
        · rw [if_pos hfo] at hk
          simp at hk
          exact ⟨[], hk.2.1.symm⟩
        · rw [if_neg hfo] at hk
          cases hs : lookupSeen seen r with
          | some orig => rw [hs] at hk; simp at hk; exact ⟨[], hk.2.1.symm⟩
          | none =>
            rw [hs] at hk
            cases ho with
            | stoicObject => simp at hk; exact ⟨[(r, path)], hk.2.1.symm⟩
            | stoicArray => simp at hk; exact ⟨[(r, path)], hk.2.1.symm⟩
            | stoicError => simp at hk; exact ⟨[(r, path)], hk.2.1.symm⟩
            | date t => simp at hk; exact ⟨[(r, path)], hk.2.1.symm⟩
            | regexp s => simp at hk; exact ⟨[(r, path)], hk.2.1.symm⟩
            | arr elems =>
              simp only [Bind.bind, Except.bind] at hk
              cases hse : sanitizeElems (fun v p s => Stoic.create h n v p s) elems path 0
                  ((r, path) :: seen) with
              | error e => rw [hse] at hk; simp at hk
              | ok outs =>
                obtain ⟨svs, sB, d2⟩ := outs
                rw [hse] at hk
                simp at hk
                obtain ⟨pre, hpre⟩ :=
                  sanitizeElems_seen (fun v p s sv s1 d hv => ih v p s sv s1 d hv)
                    elems path 0 ((r, path) :: seen) svs sB d2 hse
                refine ⟨pre ++ [(r, path)], ?_⟩
                rw [← hk.2.1, hpre, List.append_cons]
            | err name msg stack copt =>
              cases copt with
              | none => simp at hk; exact ⟨[(r, path)], hk.2.1.symm⟩
              | some c =>
                simp only [Bind.bind, Except.bind] at hk
                cases hc : Stoic.create h n c [] [] with
                | error e => rw [hc] at hk; simp at hk
                | ok out =>
                  obtain ⟨cv, sB, d2⟩ := out
                  rw [hc] at hk
                  simp at hk
                  exact ⟨[(r, path)], hk.2.1.symm⟩
            | obj fields =>
              simp only [Bind.bind, Except.bind] at hk
              cases hse : sanitizeFields (fun v p s => Stoic.create h n v p s) fields path
                  ((r, path) :: seen) with
              | error e => rw [hse] at hk; simp at hk
              | ok outs =>
                obtain ⟨svs, sB, d2⟩ := outs
                rw [hse] at hk
                simp at hk
                obtain ⟨pre, hpre⟩ :=
                  sanitizeFields_seen (fun v p s sv s1 d hv => ih v p s sv s1 d hv)
                    fields path ((r, path) :: seen) svs sB d2 hse
                refine ⟨pre ++ [(r, path)], ?_⟩
                rw [← hk.2.1, hpre, List.append_cons]
            | func => exact absurd rfl hfo
            | promise => simp at hk
            | weakMap => simp at hk
            | weakSet => simp at hk
            | arrayIterator => simp at hk

theorem sanitizeFields_keys
    {f : JSValue → List PathElem → Seen → Except CreateErr (SVal × Seen × List Diag)} :
    ∀ fs path s0 svs s1 d, sanitizeFields f fs path s0 = .ok (svs, s1, d) →
      svs.map Prod.fst = fs.map Prod.fst := by
  intro fs
  induction fs with
  | nil =>
    intro path s0 svs s1 d hk
    simp [sanitizeFields] at hk
    simp [hk.1]
  | cons kv rest ih =>
    obtain ⟨k, v⟩ := kv
    intro path s0 svs s1 d hk
    rw [sanitizeFields] at hk
    cases hv : f v (path ++ [.key k]) s0 with
    | error e => rw [hv] at hk; simp [Bind.bind, Except.bind] at hk
    | ok out =>
      obtain ⟨sv, sA, d1⟩ := out
      rw [hv] at hk
      simp only [Bind.bind, Except.bind] at hk
      cases hrest : sanitizeFields f rest path sA with
      | error e => rw [hrest] at hk; simp at hk
      | ok outs =>
        obtain ⟨svs2, sB, d2⟩ := outs
        rw [hrest] at hk
        simp at hk
        rw [← hk.1]
        simp [ih _ _ _ _ _ hrest]

theorem sanitizeElems_forall2
    {f : JSValue → List PathElem → Seen → Except CreateErr (SVal × Seen × List Diag)} :
    ∀ vs path i s0 svs s1 d, sanitizeElems f vs path i s0 = .ok (svs, s1, d) →
      List.Forall₂ (fun e x => ∃ p s sB dd, f e p s = .ok (x, sB, dd)) vs svs := by
  intro vs
  induction vs with
  | nil =>
    intro path i s0 svs s1 d hk
    simp [sanitizeElems] at hk
    rw [hk.1]
    exact List.Forall₂.nil
  | cons v rest ih =>
    intro path i s0 svs s1 d hk
    rw [sanitizeElems] at hk
    cases hv : f v (path ++ [.idx i]) s0 with
    | error e => rw [hv] at hk; simp [Bind.bind, Except.bind] at hk
    | ok out =>
      obtain ⟨sv, sA, d1⟩ := out
      rw [hv] at hk
      simp only [Bind.bind, Except.bind] at hk
      cases hrest : sanitizeElems f rest path (i + 1) sA with
      | error e => rw [hrest] at hk; simp at hk
      | ok outs =>
        obtain ⟨svs2, sB, d2⟩ := outs
        rw [hrest] at hk
        simp at hk
        rw [← hk.1]
        exact List.Forall₂.cons ⟨_, _, _, _, hv⟩ (ih _ _ _ _ _ _ hrest)

/-! The claims. -/

/-- Claim C1: for every supported input, every value reachable from the
result of `Stoic.create`, at any nesting depth (including values nested
inside `StoicObject`, `StoicArray` and `StoicError` results), is immutable:
no field assignment, addition or removal on any reachable composite ever
succeeds. -/
theorem claim_C1_deep_freeze (h : Heap) (fuel : Nat) (v : JSValue)
    (sv : SVal) (s1 : Seen) (d : List Diag)
    (hsup : SupportedHeap h = true)
    (hok : Stoic.create h fuel v [] [] = .ok (sv, s1, d)) :
    ∀ path : List PathElem, mutationSucceeds h sv path = false :=
  deepImm_mutation (create_deepImm h hsup fuel v [] [] sv s1 d hok)

theorem claim_C1_deep_freeze_witness :
    SupportedHeap heapC1 = true
    ∧ mutationSucceeds heapC1 (.vObj true [("a", .vArr true [.vPrim (.num 7)])])
        [.key ("a")] = false :=
  ⟨rfl,
   claim_C1_deep_freeze heapC1 3 (.ref 0) (.vObj true [("a", .vArr true [.vPrim (.num 7)])])
     [(1, [.key ("a")]), (0, [])] [] rfl rfl [.key ("a")]⟩

/-- Claim C2 (code bug): pending-computation and weak-identity inputs are
rejected with the `Unsupported type` TypeError, but a callable is NOT: the
`typeof source !== 'object'` check (line 60) returns it as-is, at top level
and nested, so a live mutable function remains reachable inside the frozen
result — contradicting the claim and `Stoic.create`'s own documentation. -/
theorem claim_C2_callable_not_rejected :
    Stoic.create heapC2func 1 (.ref 0) [] [] = .ok (.vRef 0, [], [])
    ∧ Stoic.create heapC2nest 2 (.ref 1) [] [] =
        .ok (.vObj true [("f", .vRef 0)], [(1, [])], [])
    ∧ mutationSucceeds heapC2nest (.vObj true [("f", .vRef 0)]) [.key ("f")] = true
    ∧ Stoic.create heapC2promise 1 (.ref 0) [] [] =
        .error (.unsupportedType ("[object Promise]"))
    ∧ Stoic.create heapC2weakMap 1 (.ref 0) [] [] =
        .error (.unsupportedType ("[object WeakMap]")) :=
  ⟨rfl, rfl, rfl, rfl, rfl⟩

/-- Claim C3: for the self-referential record `a = {}; a.self = a`,
`Stoic.create(a)` does not throw; the value at key `self` is the omitted
marker (`undefined`), and exactly one diagnostic fires, carrying
`currentPath = ["self"]` and `originalPath = []`. -/
theorem claim_C3_cycle_substitution :
    Stoic.create heapC3 3 (.ref 0) [] [] =
      .ok (.vObj true [("self", .vUndef)], [(0, [])], [⟨[.key ("self")], []⟩])
    ∧ subAt (.vObj true [("self", .vUndef)]) [.key ("self")] = some .vUndef :=
  ⟨rfl, rfl⟩

/-- Claim C4: within one traversal the visited set only ever grows (never
popped), any second occurrence of an already-seen reference — including a
shared DAG reference, not only a back-edge — is replaced by the omitted
marker with a diagnostic, and a distinct-but-structurally-equal composite
never triggers detection. -/
theorem claim_C4_visited_never_popped :
    (∀ (h : Heap) (fuel : Nat) (v : JSValue) (path : List PathElem) (seen : Seen)
        (sv : SVal) (s1 : Seen) (d : List Diag),
      Stoic.create h fuel v path seen = .ok (sv, s1, d) → ∃ pre, s1 = pre ++ seen)
    ∧ (∀ (h : Heap) (fuel r : Nat) (ho : HObj) (path : List PathElem) (seen : Seen)
        (orig : List PathElem),
      h[r]? = some ho → ho ≠ .func → lookupSeen seen r = some orig →
      Stoic.create h (fuel + 1) (.ref r) path seen = .ok (.vUndef, seen, [⟨path, orig⟩]))
    ∧ Stoic.create heapC4dag 3 (.ref 1) [] [] =
        .ok (.vObj true [("x", .vObj true []), ("y", .vUndef)],
          [(0, [.key ("x")]), (1, [])], [⟨[.key ("y")], [.key ("x")]⟩])
    ∧ Stoic.create heapC4eq 3 (.ref 2) [] [] =
        .ok (.vObj true [("x", .vObj true []), ("y", .vObj true [])],
          [(1, [.key ("y")]), (0, [.key ("x")]), (2, [])], []) := by
  refine ⟨fun h fuel v path seen sv s1 d hok => create_seen_mono h fuel v path seen sv s1 d hok,
    fun h fuel r ho path seen orig hr hneq hs => ?_, rfl, rfl⟩
  rw [Stoic.create, hr]
  dsimp only
  rw [if_neg hneq, hs]

theorem claim_C4_visited_never_popped_witness :
    (∃ pre, ([(0, [PathElem.key ("q")]), (5, ([] : List PathElem))] : Seen) =
      pre ++ [(5, ([] : List PathElem))])
    ∧ Stoic.create heapC4seen 2 (.ref 0) [.key ("z")] [(0, [.idx 5])] =
        .ok (.vUndef, [(0, [.idx 5])], [⟨[.key ("z")], [.idx 5]⟩]) :=
  ⟨claim_C4_visited_never_popped.1 heapC4seen 2 (.ref 0) [.key ("q")] [(5, [])] _ _ _ rfl,
   claim_C4_visited_never_popped.2.1 heapC4seen 1 0 (.obj []) [.key ("z")] [(0, [.idx 5])]
     [.idx 5] rfl (by decide) rfl⟩

/-- Counterexample to claim C5 as stated: `Stoic.create` on an
already-immutable instance DOES add a cycle-tracking entry for it (the
`_seen.set` on line 70 runs before the identity-passthrough tag check on
lines 75-80), so the returned tracker contains the instance, and a second
occurrence of the same instance in one traversal is replaced by the omitted
marker with a spurious cycle diagnostic. -/
theorem claim_C5_counterexample :
    Stoic.create heapC5 1 (.ref 0) [] [] = .ok (.vRef 0, [(0, [])], [])
    ∧ lookupSeen [(0, ([] : List PathElem))] 0 = some []
    ∧ Stoic.create heapC5dup 3 (.ref 1) [] [] =
        .ok (.vArr true [.vRef 0, .vUndef], [(0, [.idx 0]), (1, [])],
          [⟨[.idx 1], [.idx 0]⟩]) :=
  ⟨rfl, rfl, rfl⟩

/-- Claim C5 as amended: for a value that is already one of the three
immutable variants, `Stoic.create` returns the value itself immediately
(one recursion step, no traversal into it, no diagnostics), but it does
record a cycle-tracking entry for it. -/
theorem claim_C5_amended (h : Heap) (fuel r : Nat)
    (hr : h[r]? = some .stoicObject ∨ h[r]? = some .stoicArray ∨ h[r]? = some .stoicError) :
    Stoic.create h (fuel + 1) (.ref r) [] [] = .ok (.vRef r, [(r, [])], []) := by
  rcases hr with hr | hr | hr <;> simp [Stoic.create, hr, lookupSeen]

theorem claim_C5_amended_witness :
    Stoic.create heapC5w 1 (.ref 0) [] [] = .ok (.vRef 0, [(0, [])], []) :=
  claim_C5_amended heapC5w 0 0 (Or.inr (Or.inl rfl))

/-- Counterexample to claim C6 as stated: applying `StoicError` to an
existing `StoicError` instance does not return it — the constructor only
accepts values with the `[object Error]` tag, and a `StoicError` instance
has tag `[object StoicError]`, so it throws the `InvalidArgument`
TypeError. -/
theorem claim_C6_counterexample :
    StoicErrorCtor heapC6 1 (.ref 2) =
      .error (.invalidArgument ("StoicError expects an error.")) := rfl

/-- Claim C6 as amended: `StoicObject` and `StoicArray` return an existing
instance of their own variant unchanged (no copy); `StoicError` instead
rejects an existing `StoicError` with its `InvalidArgument` TypeError. -/
theorem claim_C6_amended (h : Heap) (fuel r : Nat) :
    (h[r]? = some .stoicObject → StoicObjectCtor h fuel (.ref r) = .ok (.vRef r, []))
    ∧ (h[r]? = some .stoicArray → StoicArrayCtor h fuel (.ref r) = .ok (.vRef r, []))
    ∧ (h[r]? = some .stoicError →
        StoicErrorCtor h fuel (.ref r) =
          .error (.invalidArgument ("StoicError expects an error."))) := by
  refine ⟨fun hr => ?_, fun hr => ?_, fun hr => ?_⟩ <;>
    simp [StoicObjectCtor, StoicArrayCtor, StoicErrorCtor, hr]

theorem claim_C6_amended_witness :
    StoicObjectCtor heapC6 1 (.ref 0) = .ok (.vRef 0, [])
    ∧ StoicArrayCtor heapC6 1 (.ref 1) = .ok (.vRef 1, [])
    ∧ StoicErrorCtor heapC6 1 (.ref 2) =
        .error (.invalidArgument ("StoicError expects an error.")) :=
  ⟨(claim_C6_amended heapC6 1 0).1 rfl, (claim_C6_amended heapC6 1 1).2.1 rfl,
   (claim_C6_amended heapC6 1 2).2.2 rfl⟩

/-- Claim C7: for a supported input whose sanitization succeeds, the result
mirrors the input's shape exactly: a record result's key list equals the
source's own enumerable key list (insertion order preserved), and a sequence
result's length equals the source's, each output element being the
sanitization of the corresponding input element. -/
theorem claim_C7_shape_preservation (h : Heap) (fuel r : Nat)
    (sv : SVal) (s1 : Seen) (d : List Diag) :
    (∀ fields, h[r]? = some (.obj fields) →
      Stoic.create h (fuel + 1) (.ref r) [] [] = .ok (sv, s1, d) →
      ∃ svs, sv = .vObj true svs ∧ svs.map Prod.fst = fields.map Prod.fst)
    ∧ (∀ elems, h[r]? = some (.arr elems) →
      Stoic.create h (fuel + 1) (.ref r) [] [] = .ok (sv, s1, d) →
      ∃ svs, sv = .vArr true svs ∧ svs.length = elems.length ∧
        List.Forall₂ (fun e x => ∃ p s sB dd, Stoic.create h fuel e p s = .ok (x, sB, dd))
          elems svs) := by
  constructor
  · intro fields hr hok
    rw [Stoic.create, hr] at hok
    dsimp only at hok
    rw [if_neg (by simp)] at hok
    rw [show lookupSeen [] r = none from rfl] at hok
    simp only [Bind.bind, Except.bind] at hok
    cases hse : sanitizeFields (fun v p s => Stoic.create h fuel v p s) fields [] [(r, [])] with
    | error e => rw [hse] at hok; simp at hok
    | ok outs =>
      obtain ⟨svs, sB, d2⟩ := outs
      rw [hse] at hok
      simp at hok
      exact ⟨svs, hok.1.symm, sanitizeFields_keys fields [] [(r, [])] svs sB d2 hse⟩
  · intro elems hr hok
    rw [Stoic.create, hr] at hok
    dsimp only at hok
    rw [if_neg (by simp)] at hok
    rw [show lookupSeen [] r = none from rfl] at hok
    simp only [Bind.bind, Except.bind] at hok
    cases hse : sanitizeElems (fun v p s => Stoic.create h fuel v p s) elems [] 0 [(r, [])] with
    | error e => rw [hse] at hok; simp at hok
    | ok outs =>
      obtain ⟨svs, sB, d2⟩ := outs
      rw [hse] at hok
      simp at hok
      have hcorr := sanitizeElems_forall2 elems [] 0 [(r, [])] svs sB d2 hse
      exact ⟨svs, hok.1.symm, hcorr.length_eq.symm, hcorr⟩

theorem claim_C7_shape_preservation_witness :
    (∃ svs, (SVal.vObj true [("a", .vPrim (.num 1)), ("b", .vNull)]) = .vObj true svs
      ∧ svs.map Prod.fst = ["a", "b"])
    ∧ (∃ svs, (SVal.vArr true [.vPrim (.num 1), .vPrim (.str ("x"))]) = .vArr true svs
      ∧ svs.length = 2 ∧
        List.Forall₂
          (fun e x => ∃ p s sB dd, Stoic.create heapC7 1 e p s = .ok (x, sB, dd))
          [.prim (.num 1), .prim (.str ("x"))] svs) :=
  ⟨(claim_C7_shape_preservation heapC7 1 0
      (.vObj true [("a", .vPrim (.num 1)), ("b", .vNull)]) [(0, [])] []).1
      [("a", .prim (.num 1)), ("b", .null)] rfl rfl,
   (claim_C7_shape_preservation heapC7 1 1
      (.vArr true [.vPrim (.num 1), .vPrim (.str ("x"))]) [(1, [])] []).2
      [.prim (.num 1), .prim (.str ("x"))] rfl rfl⟩

/-- Claim C8 (code bug): `StoicError` preserves the source's message and
stack verbatim, prefixes the name with `Stoic`, and includes a cause exactly
when the source exposed one, with the cause passed through `Stoic.create` —
but a callable cause is returned live and mutable rather than sanitized,
because of the `typeof` passthrough in `Stoic.create` (the same slip as in
claim C2), contradicting the claim's "immutable if composite". -/
theorem claim_C8_failure_fields :
    StoicErrorCtor heapC8good 2 (.ref 1) =
      .ok (.vErr true ("StoicRange") ("bad") ("trace")
        (some (.vObj true [("k", .vPrim (.str ("v")))])), [])
    ∧ deepImm heapC8good
        (.vErr true ("StoicRange") ("bad") ("trace")
          (some (.vObj true [("k", .vPrim (.str ("v")))]))) = true
    ∧ StoicErrorCtor heapC8none 1 (.ref 0) =
        .ok (.vErr true ("StoicRange") ("bad") ("trace") none, [])
    ∧ StoicErrorCtor heapC8bad 2 (.ref 1) =
        .ok (.vErr true ("StoicRange") ("bad") ("trace") (some (.vRef 0)), [])
    ∧ mutationSucceeds heapC8bad
        (.vErr true ("StoicRange") ("bad") ("trace") (some (.vRef 0))) [.key ("cause")] = true :=
  ⟨rfl, rfl, rfl, rfl, rfl⟩

/-- Claim C9: on the Immutable Sequence holding `[1,2,3]`, the delegated
`map` with a doubling callback returns a new frozen `StoicArray` holding
`[2,4,6]`, while the receiver still reports length 3 and elements `[1,2,3]`
and rejects every mutation attempt. -/
theorem claim_C9_map_purity :
    Stoic.create heapC9 2 (.ref 0) [] [] = .ok (seqC9, [(0, [])], [])
    ∧ stoicArrayMapOp heapC9 1 seqC9 doubleC9 =
        .ok (.vArr true [.vPrim (.num 2), .vPrim (.num 4), .vPrim (.num 6)], [])
    ∧ svalLength seqC9 = some 3
    ∧ subAt seqC9 [.idx 0] = some (.vPrim (.num 1))
    ∧ subAt seqC9 [.idx 1] = some (.vPrim (.num 2))
    ∧ subAt seqC9 [.idx 2] = some (.vPrim (.num 3))
    ∧ mutationSucceeds heapC9 seqC9 [] = false
    ∧ mutationSucceeds heapC9 seqC9 [.idx 0] = false
    ∧ mutationSucceeds heapC9 seqC9 [.idx 1] = false
    ∧ mutationSucceeds heapC9 seqC9 [.idx 2] = false :=
  ⟨rfl, rfl, rfl, rfl, rfl, rfl, rfl, rfl, rfl, rfl⟩

/-- Claim C10: the delegated `values()` view operation on a `StoicArray`
always throws: the wrapper applies `Stoic.create` to the host Array Iterator
produced by `Array.prototype.values`, and that tag is classified
unsupported. -/
theorem claim_C10_values_throws (h : Heap) (fuel : Nat) (s : SVal) :
    stoicArrayValuesOp h (fuel + 1) s =
      .error (.unsupportedType ("[object Array Iterator]")) := by
  simp [stoicArrayValuesOp, Stoic.create, List.getElem?_concat_length, lookupSeen,
    hobjTag, Except.map]

theorem claim_C10_values_throws_witness :
    stoicArrayValuesOp heapC10 1 seqC10 =
      .error (.unsupportedType ("[object Array Iterator]")) :=
  claim_C10_values_throws heapC10 0 seqC10
